import Mathlib

/-!
Shallow embedding of the log-rotation subsystem of `tools-go/go-utils`
(`src/trace/rotate.go` and `src/trace/writer.go`), with theorems checking
the natural-language specification against it.

Modelling conventions:
* Filenames are `GoStr` (lists of characters); all files live in the
  writer's single log directory, modelled as `Fs`, an association list
  from filename to `File`.  Directory-creation always succeeds (flat
  model) and there are no sub-directories.
* A Go `time.Time` is an absolute instant; it is modelled as a whole
  number of minutes (`Int`).  The calendar view used by the backup-name
  format `2006010215` is computed from it by `formatBackupTime`, and
  parsed back by `parseBackupTime` (Gregorian calendar, Hinnant civil
  algorithm).  Sub-minute precision is not needed by any claim.
* File contents are `FileData`: raw bytes, or a gzip wrapper recording
  the uncompressed payload.  The gzip codec is an external library; the
  wrapper models a correct, invertible codec.
* Filesystem steps whose failure the claims exercise (`os.Remove`, the
  copy phase of compression) take explicit success oracles; steps the
  claims treat as succeeding (rename, create, mkdir, close) succeed in
  the model.
-/

abbrev GoStr := List Char

abbrev Bytes := List Nat

/-- Decimal digit character for `n % 10`. -/
def natDigit (n : Nat) : Char := Char.ofNat (48 + n % 10)

/-- Two-digit zero-padded decimal rendering (Go format verb `01`, `02`, `15`). -/
def pad2 (n : Nat) : GoStr := [natDigit (n / 10), natDigit n]

/-- Four-digit zero-padded decimal rendering (Go format verb `2006`). -/
def pad4 (n : Nat) : GoStr := [natDigit (n / 1000), natDigit (n / 100), natDigit (n / 10), natDigit n]

/-- Go `strings.HasPrefix pre s` (arguments: the candidate head first, then the string). -/
def isPfxOf : GoStr → GoStr → Bool
  | [], _ => true
  | _ :: _, [] => false
  | a :: as, b :: bs => a == b && isPfxOf as bs

/-- Go `strings.HasSuffix`: `isSfxOf suf s`. -/
def isSfxOf (suf s : GoStr) : Bool := isPfxOf suf.reverse s.reverse

/-- Go `strings.TrimPrefix s pre`. -/
def trimPfx (s pre : GoStr) : GoStr := if isPfxOf pre s then s.drop pre.length else s

/-- Go `strings.TrimSuffix s suf`. -/
def trimSfx (s suf : GoStr) : GoStr :=
  if isSfxOf suf s then s.take (s.length - suf.length) else s

/-- Go `filepath.Ext` restricted to base names: the suffix beginning at the
final dot, empty when there is no dot. -/
def extOf (s : GoStr) : GoStr :=
  if s.contains '.' then '.' :: (s.reverse.takeWhile (fun c => c ≠ '.')).reverse else []

/-- The `filename[:len(filename)-len(ext)]` part of `prefixAndExt` in the source. -/
def pfxOf (s : GoStr) : GoStr := s.take (s.length - (extOf s).length)

/-- Go byte-wise string comparison `a < b` (used via `b[i].Name() > b[j].Name()`). -/
def goStrLt : GoStr → GoStr → Bool
  | [], [] => false
  | [], _ :: _ => true
  | _ :: _, [] => false
  | a :: as, b :: bs =>
    if a.toNat < b.toNat then true
    else if b.toNat < a.toNat then false
    else goStrLt as bs

/-- Leap-year rule of the proleptic Gregorian calendar (as in Go `time`). -/
def isLeap (y : Int) : Bool := (y % 4 == 0 && y % 100 != 0) || y % 400 == 0

/-- Number of days in month `m` of year `y`. -/
def daysInMonth (y m : Int) : Int :=
  if m = 2 then (if isLeap y then 29 else 28)
  else if m = 4 ∨ m = 6 ∨ m = 9 ∨ m = 11 then 30
  else 31

/-- Days since 1970-01-01 of the civil date `y-m-d` (Hinnant's `days_from_civil`). -/
def daysFromCivil (y m d : Int) : Int :=
  let y := if m ≤ 2 then y - 1 else y
  let era := Int.fdiv y 400
  let yoe := y - era * 400
  let doy := Int.fdiv (153 * (m + (if 2 < m then -3 else 9)) + 2) 5 + d - 1
  let doe := yoe * 365 + Int.fdiv yoe 4 - Int.fdiv yoe 100 + doy
  era * 146097 + doe - 719468

/-- Civil date `(y, m, d)` of the day `z` counted from 1970-01-01
(Hinnant's `civil_from_days`). -/
def civilFromDays (z : Int) : Int × Int × Int :=
  let z := z + 719468
  let era := Int.fdiv z 146097
  let doe := z - era * 146097
  let yoe := Int.fdiv (doe - Int.fdiv doe 1460 + Int.fdiv doe 36524 - Int.fdiv doe 146096) 365
  let y := yoe + era * 400
  let doy := doe - (365 * yoe + Int.fdiv yoe 4 - Int.fdiv yoe 100)
  let mp := Int.fdiv (5 * doy + 2) 153
  let d := doy - Int.fdiv (153 * mp + 2) 5 + 1
  let m := mp + (if mp < 10 then 3 else -9)
  (y + (if m ≤ 2 then 1 else 0), m, d)

/-- Minute-of-hour of an instant (Go `t.Minute()`). -/
def minuteOf (t : Int) : Int := Int.emod t 60

/-- Hour-of-day of an instant (Go `t.Hour()`). -/
def hourOf (t : Int) : Int := Int.fdiv (Int.emod t 1440) 60

/-- Go `t.Format("2006010215")`: the year, month, day and hour of the
instant `t` (in minutes), as ten digit characters. -/
def formatBackupTime (t : Int) : GoStr :=
  let c := civilFromDays (Int.fdiv t 1440)
  pad4 c.1.toNat ++ pad2 c.2.1.toNat ++ pad2 c.2.2.toNat ++ pad2 (hourOf t).toNat

/-- Numeric value of a digit string. -/
def digitsVal (s : GoStr) : Nat := s.foldl (fun a c => a * 10 + (c.toNat - 48)) 0

/-- Go `time.Parse("2006010215", ts)`: requires exactly ten digits, a month
in 1..12, a day valid for that month and an hour in 0..23; yields the
instant in minutes.  Anything else is a parse error (`none`). -/
def parseBackupTime (s : GoStr) : Option Int :=
  if s.length = 10 ∧ s.all Char.isDigit then
    let y : Int := digitsVal (s.take 4)
    let mo : Int := digitsVal ((s.drop 4).take 2)
    let d : Int := digitsVal ((s.drop 6).take 2)
    let h : Int := digitsVal ((s.drop 8).take 2)
    if 1 ≤ mo ∧ mo ≤ 12 ∧ 1 ≤ d ∧ d ≤ daysInMonth y mo ∧ h ≤ 23 then
      some (daysFromCivil y mo d * 1440 + h * 60)
    else none
  else none

/-- Contents of a file: raw bytes, or the gzip compression of some contents.
The gzip codec itself is the external `compress/gzip` library; the
constructor records the payload so that decompression is its inverse. -/
inductive FileData where
  | raw (bytes : Bytes)
  | gzipped (inner : FileData)
deriving DecidableEq, Repr

/-- Decompression (`gzip.Reader` reading the whole file): succeeds exactly on
gzip-compressed contents and yields the payload. -/
def gunzipData : FileData → Option FileData
  | .raw _ => none
  | .gzipped d => some d

/-- Byte length of file contents; the model leaves the compressed size equal
to the payload size (no claim depends on the compression ratio). -/
def dataLen : FileData → Int
  | .raw bytes => bytes.length
  | .gzipped d => dataLen d

/-- A file on disk: contents, permission mode, modification time. -/
structure File where
  data : FileData
  mode : Nat
  mtime : Int
deriving DecidableEq, Repr

/-- Go `info.Size()`. -/
def File.size (f : File) : Int := dataLen f.data

/-- The log directory: an association list from filename to file. -/
abbrev Fs := List (GoStr × File)

/-- Go `os.Stat` within the log directory: first entry with the given name. -/
def fsGet : Fs → GoStr → Option File
  | [], _ => none
  | (n, f) :: rest, name => if n = name then some f else fsGet rest name

/-- Go `os.Remove`: drop every entry with the given name. -/
def fsErase : Fs → GoStr → Fs
  | [], _ => []
  | (n, f) :: rest, name => if n = name then fsErase rest name else (n, f) :: fsErase rest name

/-- Create or replace a file (in place when present, appended when new). -/
def fsInsert : Fs → GoStr → File → Fs
  | [], name, f => [(name, f)]
  | (n, g) :: rest, name, f =>
    if n = name then (n, f) :: rest else (n, g) :: fsInsert rest name f

/-- Go `os.Rename src dst`: move the file, replacing any existing `dst`. -/
def fsRename (fs : Fs) (src dst : GoStr) : Fs :=
  match fsGet fs src with
  | none => fs
  | some f => fsInsert (fsErase fs src) dst f

/-- Append bytes to a file's raw contents (a `file.Write` on the open handle);
the active log file always holds raw bytes. -/
def appendData (d : FileData) (p : Bytes) : FileData :=
  match d with
  | .raw bytes => .raw (bytes ++ p)
  | .gzipped q => .gzipped q

/-- Write `p` at the end of the file `name` (the open handle's target). -/
def fsAppend (fs : Fs) (name : GoStr) (p : Bytes) (now : Int) : Fs :=
  match fsGet fs name with
  | none => fs
  | some f => fsInsert fs name { f with data := appendData f.data p, mtime := now }

/-- Total size of every file under the log directory (`dirsize`, recursive
walk; the model's directory is flat). -/
def dirsize (fs : Fs) : Int := (fs.map (fun e => e.2.size)).sum

/-- Error values of the rotation subsystem (the spec's error taxonomy; the
source builds them with `fmt.Errorf`). -/
inductive GoError where
  | oversizeWrite (writeLen maxSize : Int)
  | openError (name : GoStr)
  | removeError (name : GoStr)
  | compressError (name : GoStr)
deriving DecidableEq, Repr

/-- Configuration block `RotateConfig` of `rotate.go`. -/
structure RotateConfig where
  MaxSize : Int
  MaxAge : Int
  MaxBackups : Int
  MaxBackupSize : Int
  Compress : Bool
deriving DecidableEq, Repr

/-- State of a `RotateWriter`: the embedded configuration, the target
filename (a base name; the directory is the modelled `Fs`), the local-time
flag, the in-memory `size` counter and whether `file` is a live handle.
While open, the handle always refers to the file at `Filename` (the source
closes the handle before renaming the file away).  The mutex, inode field
and mill channel carry no sequential state. -/
structure RotateWriter where
  cfg : RotateConfig
  Filename : GoStr
  LocalTime : Bool
  size : Int
  fileOpen : Bool
deriving DecidableEq, Repr

/-- Conversion factor between `MaxSize` and bytes (`megabyte` in the source). -/
def megabyte : Int := 1024 * 1024

/-- Default for `MaxSize` when unset (`defaultMaxSize` in the source). -/
def defaultMaxSize : Int := 1024

/-- Go `l.max()`: the rotation threshold in bytes. -/
def RotateWriter.max (l : RotateWriter) : Int :=
  if l.cfg.MaxSize = 0 then defaultMaxSize * megabyte else l.cfg.MaxSize * megabyte

/-- Go `l.maxBackupSize()`: the directory-size budget in bytes. -/
def RotateWriter.maxBackupSize (l : RotateWriter) : Int := l.cfg.MaxBackupSize * megabyte

/-- Go `l.prefixAndExt()`. -/
def RotateWriter.pfxAndExt (l : RotateWriter) : GoStr × GoStr :=
  (pfxOf l.Filename, extOf l.Filename)

/-- The `.gz` suffix (`compressSuffix` in the source). -/
def compressSuffix : GoStr := ['.', 'g', 'z']

/-- Adjustment applied by `backupName` before formatting: at an exact hour
boundary (`t.Minute() == 0`) the timestamp is taken one hour earlier. -/
def backupAdjust (t : Int) : Int := if minuteOf t = 0 then t - 60 else t

/-- Collision-avoidance loop of `backupName`: at most `fuel` stats (99 in the
source, the loop indices 1..99); a candidate that does not exist is taken,
an existing one is replaced by `stem ++ digits of idx` and the final
candidate is returned unchecked when the fuel runs out. -/
def bnLoop (fs : Fs) (stem : GoStr) : Nat → Nat → GoStr → GoStr
  | _, 0, cand => cand
  | idx, fuel + 1, cand =>
    match fsGet fs cand with
    | none => cand
    | some _ => bnLoop fs stem (idx + 1) fuel (stem ++ Nat.toDigits 10 idx)

/-- Go `backupName(name, local)`: `prefix ++ ext ++ "." ++ timestamp`, with
the minute-zero hour shift and the numeric disambiguation loop.  The
local/UTC choice only selects the clock's zone; the model has one clock. -/
def backupNameGo (fs : Fs) (name : GoStr) (t : Int) : GoStr :=
  let ext := extOf name
  let pfx := pfxOf name
  let timestamp := formatBackupTime (backupAdjust t)
  let stem := pfx ++ ext ++ ('.' :: timestamp)
  bnLoop fs stem 1 99 stem

/-- Go `l.openNew()`: back up any existing file under a fresh backup name
(keeping its mode on the recreated file), create the active file truncated,
reset the size counter.  Rename and create succeed in the model. -/
def RotateWriter.openNew (l : RotateWriter) (fs : Fs) (now : Int) : RotateWriter × Fs :=
  let name := l.Filename
  match fsGet fs name with
  | some info =>
      let newname := backupNameGo fs name now
      let fs := fsInsert (fsErase fs name) newname info
      let fs := fsInsert fs name { data := .raw [], mode := info.mode, mtime := now }
      ({ l with fileOpen := true, size := 0 }, fs)
  | none =>
      let fs := fsInsert fs name { data := .raw [], mode := 0o644, mtime := now }
      ({ l with fileOpen := true, size := 0 }, fs)

/-- Go `l.close()`: close the handle if open; never fails in the model. -/
def RotateWriter.close (l : RotateWriter) : Option GoError × RotateWriter :=
  if l.fileOpen then (none, { l with fileOpen := false }) else (none, l)

/-- Go `l.Close()`: the exported close (the mutex carries no sequential
state). -/
def RotateWriter.CloseOp (l : RotateWriter) : Option GoError × RotateWriter := l.close

/-- Go `l.rotate()`: close, open new (which moves the old file aside), then
signal the mill.  The signal only wakes the background compactor; the
compaction pass itself is `millRunOnce` below. -/
def RotateWriter.rotate (l : RotateWriter) (fs : Fs) (now : Int) : RotateWriter × Fs :=
  let l := (l.close).2
  l.openNew fs now

/-- Go `l.openExistingOrNew(writeLen)`: adopt the existing file (size from
stat) unless absent or the pending write would reach `max()`, in which case
rotate. -/
def RotateWriter.openExistingOrNew (l : RotateWriter) (fs : Fs) (now : Int) (writeLen : Nat) :
    RotateWriter × Fs :=
  match fsGet fs l.Filename with
  | none => l.openNew fs now
  | some info =>
      if l.max ≤ info.size + writeLen then l.rotate fs now
      else ({ l with fileOpen := true, size := info.size }, fs)

/-- Go `l.Write(p)`: reject oversize writes, lazily open, rotate when the
write would overflow `max()`, then append and advance the size counter. -/
def RotateWriter.write (l : RotateWriter) (fs : Fs) (now : Int) (p : Bytes) :
    Nat × Option GoError × RotateWriter × Fs :=
  let writeLen : Int := p.length
  if l.max < writeLen then (0, some (.oversizeWrite writeLen l.max), l, fs)
  else
    let s1 := if l.fileOpen then (l, fs) else l.openExistingOrNew fs now p.length
    let s2 := if s1.1.max < s1.1.size + writeLen then s1.1.rotate s1.2 now else s1
    let fs := fsAppend s2.2 s2.1.Filename p now
    (p.length, none, { s2.1 with size := s2.1.size + p.length }, fs)

/-- Go `l.timeFromName(filename, prefix, ext, compress)`: strip the
`prefix ++ ext` head, an optional dot, and (in compressed mode) the `.gz`
tail, truncate to the ten characters of the timestamp format, and parse. -/
def timeFromName (filename pfx ext : GoStr) (compressed : Bool) : Option Int :=
  let clearFilename := pfx ++ ext
  if !(isPfxOf clearFilename filename) then none
  else if compressed && !(isSfxOf compressSuffix filename) then none
  else
    let ts := trimPfx filename clearFilename
    let ts := trimPfx ts ['.']
    let ts := if compressed then trimSfx ts compressSuffix else ts
    let ts := if 10 < ts.length then ts.take 10 else ts
    parseBackupTime ts

/-- Entry of the backup list (`logInfo` in the source): parsed timestamp plus
the directory entry's name, size and modification time. -/
structure logInfo where
  timestamp : Int
  name : GoStr
  fsize : Int
  mtime : Int
deriving DecidableEq, Repr

/-- Comparator `byFormatTime.Less`: newest parsed timestamp first, ties by
modification time (newest first), then by name (descending). -/
def lessByFormatTime (a b : logInfo) : Bool :=
  if a.timestamp ≠ b.timestamp then decide (b.timestamp < a.timestamp)
  else if a.mtime ≠ b.mtime then decide (b.mtime < a.mtime)
  else goStrLt b.name a.name

/-- Insertion step of the sort used for `sort.Sort(byFormatTime(logFiles))`. -/
def insertLog (x : logInfo) : List logInfo → List logInfo
  | [] => [x]
  | y :: ys => if lessByFormatTime x y then x :: y :: ys else y :: insertLog x ys

/-- Sorting of the backup list by `byFormatTime` (the comparator is a strict
total order whenever names are distinct, so any sorting algorithm yields
this result). -/
def sortLogs : List logInfo → List logInfo
  | [] => []
  | x :: xs => insertLog x (sortLogs xs)

/-- Classification step of `oldLogFiles`: try the uncompressed pattern, then
the compressed one. -/
def classifyBackup (pfx ext : GoStr) (name : GoStr) (fi : File) : Option logInfo :=
  match timeFromName name pfx ext false with
  | some t => some ⟨t, name, fi.size, fi.mtime⟩
  | none =>
    match timeFromName name pfx ext true with
    | some t => some ⟨t, name, fi.size, fi.mtime⟩
    | none => none

/-- Go `l.oldLogFiles()`: every directory entry whose name parses as a backup
of this writer, sorted newest first. -/
def RotateWriter.oldLogFiles (l : RotateWriter) (fs : Fs) : List logInfo :=
  sortLogs (fs.filterMap (fun e => classifyBackup (pfxOf l.Filename) (extOf l.Filename) e.1 e.2))

/-- Count-policy walk of `millRunOnce` (the loop guarded by
`l.MaxBackups > 0 && l.MaxBackups < len(files)`): `preserved` is the set of
logical backup names seen so far (a compressed file and its uncompressed
counterpart count once, via the `.gz`-stripped name); a file is marked for
removal once the set's cardinality exceeds the budget.  Returns
`(remove, remaining)` in walk order. -/
def countWalk (maxB : Int) (preserved : List GoStr) :
    List logInfo → List logInfo × List logInfo
  | [] => ([], [])
  | f :: rest =>
    let fn := trimSfx f.name compressSuffix
    let preserved := if preserved.contains fn then preserved else fn :: preserved
    let r := countWalk maxB preserved rest
    if maxB < preserved.length then (f :: r.1, r.2) else (r.1, f :: r.2)

/-- Count stage of `millRunOnce`. -/
def countStage (maxB : Int) (files : List logInfo) : List logInfo × List logInfo :=
  if 0 < maxB ∧ maxB < (files.length : Int) then countWalk maxB [] files else ([], files)

/-- Age stage of `millRunOnce`: cutoff is `now` minus `maxAge` 24-hour days
(1440 minutes each); files whose parsed timestamp is strictly before the
cutoff are marked for removal. -/
def ageStage (maxAge now : Int) (files : List logInfo) : List logInfo × List logInfo :=
  if 0 < maxAge then
    let cutoff := now - 1440 * maxAge
    (files.filter (fun f => f.timestamp < cutoff), files.filter (fun f => ¬ f.timestamp < cutoff))
  else ([], files)

/-- Total-size walk of `millRunOnce` (the loop `for idx := len(files); idx > 0;
idx--`): called on the reversed remaining list (oldest first); while the
running total is at or above the budget the file is marked and its size
subtracted.  Returns `(finalTotal, remove, remaining)` in walk order. -/
def sizeWalk (budget : Int) : Int → List logInfo → Int × List logInfo × List logInfo
  | tot, [] => (tot, [], [])
  | tot, f :: rest =>
    if budget ≤ tot then
      let r := sizeWalk budget (tot - f.fsize) rest
      (r.1, f :: r.2.1, r.2.2)
    else
      let r := sizeWalk budget tot rest
      (r.1, r.2.1, f :: r.2.2)

/-- Total-size stage of `millRunOnce`: compute the directory's total size,
subtract the sizes already marked for removal, and if still at or above the
budget walk the remaining files oldest-first marking until under budget. -/
def sizeStage (l : RotateWriter) (fs : Fs) (removedSoFar files : List logInfo) :
    List logInfo × List logInfo :=
  if 0 < l.cfg.MaxBackupSize then
    let backupDirSize := dirsize fs
    if l.maxBackupSize ≤ backupDirSize then
      let backupDirSize := backupDirSize - (removedSoFar.map (fun f => f.fsize)).sum
      if l.maxBackupSize ≤ backupDirSize then
        let r := sizeWalk l.maxBackupSize backupDirSize files.reverse
        (r.2.1, r.2.2)
      else ([], files)
    else ([], files)
  else ([], files)

/-- Go `compressLogFile(src, dst)`, with `copyOk` the success oracle for the
copy/close phase.  On success the destination holds the gzip compression of
the source's contents under the source's mode and the source is removed; on
a copy failure the deferred cleanup removes the partial destination. -/
def compressLogFile (copyOk : Bool) (src dst : GoStr) (fs : Fs) (now : Int) :
    Fs × Option GoError :=
  match fsGet fs src with
  | none => (fs, some (.openError src))
  | some fi =>
    let fs1 := fsInsert fs dst { data := .raw [], mode := fi.mode, mtime := now }
    if copyOk then
      let fs2 := fsInsert fs1 dst { data := .gzipped fi.data, mode := fi.mode, mtime := now }
      (fsErase fs2 src, none)
    else
      (fsErase fs1 dst, some (.compressError src))

/-- Removal loop of `millRunOnce`: every file is attempted (`removeOk` is the
per-file success oracle); the first error is remembered, later ones are
dropped. -/
def execRemove (removeOk : GoStr → Bool) : List logInfo → Fs → Option GoError →
    Fs × Option GoError
  | [], fs, err => (fs, err)
  | f :: rest, fs, err =>
    if removeOk f.name then execRemove removeOk rest (fsErase fs f.name) err
    else execRemove removeOk rest fs (if err = none then some (.removeError f.name) else err)

/-- Compression loop of `millRunOnce`: gzip each selected file into
`<name>.gz`; the first error is remembered, later ones are dropped. -/
def execCompressList (copyOk : GoStr → Bool) (now : Int) : List logInfo → Fs → Option GoError →
    Fs × Option GoError
  | [], fs, err => (fs, err)
  | f :: rest, fs, err =>
    let r := compressLogFile (copyOk f.name) f.name (f.name ++ compressSuffix) fs now
    execCompressList copyOk now rest r.1 (if err = none then r.2 else err)

/-- Go `l.millRunOnce()`: one compaction pass — no-op when every policy is
disabled; otherwise list and sort the backups, apply the count, age and
total-size policies, then execute removals and (when enabled) compressions,
returning the first error met. -/
def RotateWriter.millRunOnce (l : RotateWriter) (removeOk copyOk : GoStr → Bool)
    (fs : Fs) (now : Int) : Fs × Option GoError :=
  if l.cfg.MaxBackups = 0 ∧ l.cfg.MaxAge = 0 ∧ ¬l.cfg.Compress ∧ l.cfg.MaxBackupSize = 0 then
    (fs, none)
  else
    let files := l.oldLogFiles fs
    let c := countStage l.cfg.MaxBackups files
    let a := ageStage l.cfg.MaxAge now c.2
    let s := sizeStage l fs (c.1 ++ a.1) a.2
    let compressList :=
      if l.cfg.Compress then s.2.filter (fun f => !(isSfxOf compressSuffix f.name)) else []
    let r1 := execRemove removeOk (c.1 ++ a.1 ++ s.1) fs none
    execCompressList copyOk now compressList r1.1 r1.2

/-- A Go channel used purely for teardown signalling: open or closed. -/
inductive GoChan where
  | chOpen
  | chClosed
deriving DecidableEq, Repr

/-- Go `close(ch)`: closing an already-closed channel panics at run time
(`none`). -/
def chanClose : GoChan → Option GoChan
  | .chOpen => some .chClosed
  | .chClosed => none

/-- The `closerWriter` of `writer.go`: an optional `closeFunc` (external
behaviour, out of the model) checked first, else an optional teardown
channel that `Close` closes. -/
structure closerWriter where
  hasCloseFunc : Bool
  closeChan : Option GoChan
deriving DecidableEq, Repr

/-- Go `(*closerWriter).Close()`: `none` is a run-time panic. -/
def closerWriter.CloseOp (cw : closerWriter) : Option (closerWriter × Option GoError) :=
  if cw.hasCloseFunc then some (cw, none)
  else
    match cw.closeChan with
    | some ch =>
      match chanClose ch with
      | some ch2 => some ({ cw with closeChan := some ch2 }, none)
      | none => none
    | none => some (cw, none)

/-- The `asyncWriter` teardown state of `writer.go`: its `quit` channel. -/
structure asyncWriter where
  quit : GoChan
deriving DecidableEq, Repr

/-- Go `(*asyncWriter).Close()` closes `w.quit` then the wrapped writer;
`none` is a run-time panic on the channel close. -/
def asyncWriter.CloseOp (w : asyncWriter) : Option asyncWriter :=
  match chanClose w.quit with
  | some q => some { quit := q }
  | none => none

def cfgNegMax : RotateConfig :=
  { MaxSize := -1, MaxAge := 0, MaxBackups := 0, MaxBackupSize := 0, Compress := false }

def lwNegMax : RotateWriter :=
  { cfg := cfgNegMax, Filename := "app.log".data, LocalTime := false, size := 0, fileOpen := false }

/-- The first candidate backup name: `prefix ++ ext ++ "." ++ timestamp`,
where the timestamp is the year-month-day-hour of the rotation instant,
taken one hour earlier when the wall-clock minute is zero. -/
def bnStem (name : GoStr) (t : Int) : GoStr :=
  pfxOf name ++ extOf name ++ ('.' :: formatBackupTime (if minuteOf t = 0 then t - 60 else t))

def lwApp : RotateWriter :=
  { cfg := { MaxSize := 0, MaxAge := 0, MaxBackups := 0, MaxBackupSize := 0, Compress := false },
    Filename := ("app.log").data, LocalTime := false, size := 0, fileOpen := false }

def fileB : File := { data := .raw [7, 8], mode := 420, mtime := 5 }

def nmSuffixed : GoStr := ("app.log.20240102131").data

def t13 : Int := daysFromCivil 2024 1 2 * 1440 + 13 * 60

/-- Size-accounting invariant of the write path: while a handle is open, the
active file holds raw bytes whose count equals the in-memory `size`
counter (the counter is re-derived by stat only when a handle is opened). -/
def activeInv (l : RotateWriter) (fs : Fs) : Prop :=
  l.fileOpen = true →
    ∃ f b, fsGet fs l.Filename = some f ∧ f.data = .raw b ∧ ((b.length : Int)) = l.size

def lwOpen : RotateWriter :=
  { cfg := { MaxSize := 0, MaxAge := 0, MaxBackups := 0, MaxBackupSize := 0, Compress := false },
    Filename := ("app.log").data, LocalTime := false, size := 0, fileOpen := true }

def fsActive : Fs := [(("app.log").data, { data := .raw [], mode := 420, mtime := 0 })]

def srcNm : GoStr := ("app.log.2024010213").data

def lwAge : RotateWriter :=
  { cfg := { MaxSize := 0, MaxAge := 1, MaxBackups := 0, MaxBackupSize := 0, Compress := false },
    Filename := ("app.log").data, LocalTime := false, size := 0, fileOpen := false }

def liAge : logInfo := ⟨t13, srcNm, 2, 5⟩

def lwCount : RotateWriter :=
  { cfg := { MaxSize := 0, MaxAge := 0, MaxBackups := 1, MaxBackupSize := 0, Compress := false },
    Filename := ("app.log").data, LocalTime := false, size := 0, fileOpen := false }

def fsCount : Fs :=
  [(("app.log").data, fileB), (srcNm, fileB), (("app.log.2024010212").data, fileB)]

/-- Length of the head-run of the oldest-first walk of the total-size
policy: how many files the walk marks before the running total drops below
the budget (or the list runs out). -/
def sizeCut (budget : Int) : Int → List logInfo → Nat
  | _, [] => 0
  | tot, f :: rest => if budget ≤ tot then sizeCut budget (tot - f.fsize) rest + 1 else 0

/-- N consecutive calls of `Rotate` at the given instants (the scenario of
the spec's rotation-count property). -/
def rotateSeq : RotateWriter → Fs → List Int → RotateWriter × Fs
  | l, fs, [] => (l, fs)
  | l, fs, t :: ts => rotateSeq (l.rotate fs t).1 (l.rotate fs t).2 ts

def lwSize : RotateWriter :=
  { cfg := { MaxSize := 0, MaxAge := 0, MaxBackups := 0, MaxBackupSize := 1, Compress := false },
    Filename := ("app.log").data, LocalTime := false, size := 0, fileOpen := false }

lemma fsGet_fsInsert_self (fs : Fs) (n : GoStr) (f : File) :
    fsGet (fsInsert fs n f) n = some f := by
  induction fs with
  | nil => simp [fsInsert, fsGet]
  | cons e rest ih =>
    obtain ⟨m, g⟩ := e
    by_cases h : m = n
    · simp [fsInsert, h, fsGet]
    · simp [fsInsert, h, fsGet, ih]

lemma fsGet_fsInsert_ne (fs : Fs) (n m : GoStr) (f : File) (h : m ≠ n) :
    fsGet (fsInsert fs n f) m = fsGet fs m := by
  induction fs with
  | nil => simp [fsInsert, fsGet, Ne.symm h]
  | cons e rest ih =>
    obtain ⟨k, g⟩ := e
    by_cases hk : k = n
    · subst hk
      simp [fsInsert, fsGet, Ne.symm h]
    · simp only [fsInsert, if_neg hk, fsGet]
      by_cases hm : k = m <;> simp [hm, ih]

lemma fsGet_fsErase (fs : Fs) (n m : GoStr) :
    fsGet (fsErase fs n) m = if m = n then none else fsGet fs m := by
  induction fs with
  | nil => simp [fsErase, fsGet]
  | cons e rest ih =>
    obtain ⟨k, g⟩ := e
    rw [fsErase]
    by_cases hk : k = n
    · rw [if_pos hk, ih]
      subst hk
      by_cases hm : m = k
      · simp [hm, fsGet]
      · simp [hm, fsGet, Ne.symm hm]
    · rw [if_neg hk, fsGet, fsGet, ih]
      by_cases hkm : k = m
      · subst hkm
        simp [hk]
      · simp [hkm]

lemma fsErase_eq_filter (fs : Fs) (n : GoStr) :
    fsErase fs n = fs.filter (fun e => decide (e.1 ≠ n)) := by
  induction fs with
  | nil => simp [fsErase]
  | cons e rest ih =>
    obtain ⟨k, g⟩ := e
    by_cases hk : k = n <;> simp [fsErase, hk, ih, List.filter_cons]

lemma fsGet_eq_none_iff (fs : Fs) (n : GoStr) :
    fsGet fs n = none ↔ n ∉ fs.map Prod.fst := by
  induction fs with
  | nil => simp [fsGet]
  | cons e rest ih =>
    obtain ⟨k, g⟩ := e
    by_cases hk : k = n
    · subst hk
      constructor
      · intro h
        rw [fsGet, if_pos rfl] at h
        exact absurd h (by simp)
      · intro h
        exact absurd (List.mem_cons_self k (rest.map Prod.fst)) h
    · rw [fsGet, if_neg hk, ih]
      constructor
      · intro h hmem
        rcases List.mem_cons.mp hmem with h1 | h1
        · exact hk h1.symm
        · exact h h1
      · intro h hmem
        exact h (List.mem_cons_of_mem (k, g).fst hmem)

lemma fsInsert_of_absent (fs : Fs) (n : GoStr) (f : File) (h : fsGet fs n = none) :
    fsInsert fs n f = fs ++ [(n, f)] := by
  induction fs with
  | nil => simp [fsInsert]
  | cons e rest ih =>
    obtain ⟨k, g⟩ := e
    by_cases hk : k = n
    · rw [fsGet, if_pos hk] at h
      exact absurd h (by simp)
    · rw [fsGet, if_neg hk] at h
      simp [fsInsert, hk, ih h]

lemma isPfxOf_append (a b : GoStr) : isPfxOf a (a ++ b) = true := by
  induction a with
  | nil => simp [isPfxOf]
  | cons c cs ih => simp [isPfxOf, ih]

lemma mem_insertLog (x y : logInfo) (l : List logInfo) :
    y ∈ insertLog x l ↔ y = x ∨ y ∈ l := by
  induction l with
  | nil => simp [insertLog]
  | cons z zs ih =>
    rw [insertLog]
    by_cases h : lessByFormatTime x z
    · simp [h]
    · simp [h, ih]
      tauto

lemma mem_sortLogs (x : logInfo) (l : List logInfo) :
    x ∈ sortLogs l ↔ x ∈ l := by
  induction l with
  | nil => simp [sortLogs]
  | cons y ys ih => simp [sortLogs, mem_insertLog, ih]

lemma length_insertLog (x : logInfo) (l : List logInfo) :
    (insertLog x l).length = l.length + 1 := by
  induction l with
  | nil => simp [insertLog]
  | cons z zs ih =>
    rw [insertLog]
    by_cases h : lessByFormatTime x z <;> simp [h, ih]

lemma length_sortLogs (l : List logInfo) : (sortLogs l).length = l.length := by
  induction l with
  | nil => rfl
  | cons y ys ih => simp [sortLogs, length_insertLog, ih]

lemma lessByFormatTime_true_ts {a b : logInfo} (h : lessByFormatTime a b = true) :
    b.timestamp ≤ a.timestamp := by
  unfold lessByFormatTime at h
  by_cases hts : a.timestamp = b.timestamp
  · omega
  · simp [hts] at h; omega

lemma lessByFormatTime_false_ts {a b : logInfo} (h : lessByFormatTime a b = false) :
    a.timestamp ≤ b.timestamp := by
  unfold lessByFormatTime at h
  by_cases hts : a.timestamp = b.timestamp
  · omega
  · simp [hts] at h; omega

lemma pairwise_insertLog (x : logInfo) (l : List logInfo)
    (h : l.Pairwise (fun a b => b.timestamp ≤ a.timestamp)) :
    (insertLog x l).Pairwise (fun a b => b.timestamp ≤ a.timestamp) := by
  induction l with
  | nil => simp [insertLog]
  | cons z zs ih =>
    rcases List.pairwise_cons.mp h with ⟨hz, hzs⟩
    rw [insertLog]
    by_cases hc : lessByFormatTime x z
    · rw [if_pos hc]
      refine List.pairwise_cons.mpr ⟨?_, h⟩
      intro b hb
      rcases List.mem_cons.mp hb with hb | hb
      · subst hb; exact lessByFormatTime_true_ts hc
      · exact le_trans (hz b hb) (lessByFormatTime_true_ts hc)
    · rw [if_neg hc]
      refine List.pairwise_cons.mpr ⟨?_, ih hzs⟩
      intro b hb
      rcases (mem_insertLog x b zs).mp hb with hb | hb
      · subst hb
        exact lessByFormatTime_false_ts (Bool.eq_false_iff.mpr hc)
      · exact hz b hb

lemma pairwise_sortLogs (l : List logInfo) :
    (sortLogs l).Pairwise (fun a b => b.timestamp ≤ a.timestamp) := by
  induction l with
  | nil => simp [sortLogs]
  | cons y ys ih => exact pairwise_insertLog y (sortLogs ys) ih

lemma append_ne_self (l c : GoStr) (h : c ≠ []) : l ++ c ≠ l := by
  intro he
  have hlen : l.length + c.length = l.length := by
    simpa using congrArg List.length he
  have : c.length = 0 := by omega
  exact h (List.length_eq_zero.mp this)

/-- C2: a write longer than the effective maximum file size returns 0 bytes
written and the oversize error, performs no filesystem operation, attempts
no rotation, and leaves the writer's state and the active file unchanged. -/
theorem C2_write_oversize (l : RotateWriter) (fs : Fs) (now : Int) (p : Bytes)
    (h : l.max < (p.length : Int)) :
    l.write fs now p = (0, some (.oversizeWrite p.length l.max), l, fs) := by
  simp [RotateWriter.write, h]

theorem C2_write_oversize_witness :
    lwNegMax.max < ((([42] : Bytes)).length : Int) ∧
    lwNegMax.write [] 0 [42] =
      (0, some (.oversizeWrite (([42] : Bytes).length : Int) lwNegMax.max), lwNegMax, []) :=
  ⟨by decide, C2_write_oversize lwNegMax [] 0 [42] (by decide)⟩

/-- C9: `RotateWriter.Close` is idempotent — with no open handle it returns
nil, and a second close after a successful close returns nil again; but the
wrapping `closerWriter` built with a teardown channel panics on the second
`Close` (`close` of an already-closed Go channel), as does the async
writer's `Close` on its `quit` channel: the model's `none` is that panic. -/
theorem C9_close_doubleClose :
    (∀ l : RotateWriter,
      (l.CloseOp).1 = none ∧
      ((l.CloseOp).2).CloseOp = (none, (l.CloseOp).2) ∧
      ((l.CloseOp).2).fileOpen = false) ∧
    ({ hasCloseFunc := false, closeChan := some .chOpen } : closerWriter).CloseOp =
      some ({ hasCloseFunc := false, closeChan := some .chClosed }, none) ∧
    ({ hasCloseFunc := false, closeChan := some .chClosed } : closerWriter).CloseOp = none ∧
    asyncWriter.CloseOp { quit := .chClosed } = none := by
  refine ⟨?_, rfl, rfl, rfl⟩
  intro l
  by_cases h : l.fileOpen <;>
    simp [RotateWriter.CloseOp, RotateWriter.close, h]

lemma bnLoop_succ (fs : Fs) (stem : GoStr) (idx fuel : Nat) (cand : GoStr) :
    bnLoop fs stem idx (fuel + 1) cand =
      match fsGet fs cand with
      | none => cand
      | some _ => bnLoop fs stem (idx + 1) fuel (stem ++ Nat.toDigits 10 idx) := rfl

lemma backupNameGo_eq_loop (fs : Fs) (name : GoStr) (t : Int) :
    backupNameGo fs name t = bnLoop fs (bnStem name t) 1 99 (bnStem name t) := rfl

lemma bnLoop_all_occupied (fs : Fs) (stem : GoStr) :
    ∀ (fuel idx : Nat) (cand : GoStr),
      fsGet fs cand ≠ none →
      (∀ j : Nat, idx ≤ j → j + 1 < idx + fuel → fsGet fs (stem ++ Nat.toDigits 10 j) ≠ none) →
      bnLoop fs stem idx fuel cand =
        if fuel = 0 then cand else stem ++ Nat.toDigits 10 (idx + fuel - 1) := by
  intro fuel
  induction fuel with
  | zero => intro idx cand _ _; rfl
  | succ f ih =>
    intro idx cand hcand hall
    rw [bnLoop_succ]
    rcases hc : fsGet fs cand with _ | g
    · exact absurd hc hcand
    · rcases hf : f with _ | f2
      · rfl
      · rw [← hf]
        have h1 : fsGet fs (stem ++ Nat.toDigits 10 idx) ≠ none := by
          refine hall idx le_rfl ?_
          omega
        have h2 : ∀ j : Nat, idx + 1 ≤ j → j + 1 < idx + 1 + f →
            fsGet fs (stem ++ Nat.toDigits 10 j) ≠ none := by
          intro j hj1 hj2
          refine hall j (by omega) (by omega)
        rw [ih (idx + 1) (stem ++ Nat.toDigits 10 idx) h1 h2]
        have hfz : ¬ (f = 0) := by omega
        simp only [hfz, if_false]
        congr 1
        congr 1
        omega

/-- C3 counterexample: at an input where the base backup name is taken, the
source appends the attempt number directly after the timestamp
(`app.log.20240102131`), not the dot-separated `.1` suffix the claim
describes. -/
theorem C3_backupName_counterexample :
    backupNameGo [(("app.log").data, { data := .raw [1], mode := 420, mtime := 0 }),
        (("app.log.2024010213").data, { data := .raw [2], mode := 420, mtime := 0 })]
      ("app.log").data (daysFromCivil 2024 1 2 * 1440 + 13 * 60 + 5) =
      ("app.log.20240102131").data ∧
    backupNameGo [(("app.log").data, { data := .raw [1], mode := 420, mtime := 0 }),
        (("app.log.2024010213").data, { data := .raw [2], mode := 420, mtime := 0 })]
      ("app.log").data (daysFromCivil 2024 1 2 * 1440 + 13 * 60 + 5) ≠
      ("app.log.2024010213.1").data := by
  constructor
  · decide
  · decide

/-- C3 (amended): the backup name is `prefix ++ ext ++ "." ++ timestamp`
(year-month-day-hour, computed one hour earlier when the wall-clock minute
is zero); on a collision the attempt number 1, 2, … is appended directly
after the timestamp (no separating dot), until a free name is found, with
at most 99 existence checks after which the candidate carrying suffix 99 is
used unchecked; a second rotation in the same hour therefore gets the
suffixed name, distinct from the first, and overwrites nothing. -/
theorem C3_backupName_amended (fs : Fs) (name : GoStr) (t : Int) :
    (fsGet fs (bnStem name t) = none → backupNameGo fs name t = bnStem name t) ∧
    (fsGet fs (bnStem name t) ≠ none →
      fsGet fs (bnStem name t ++ Nat.toDigits 10 1) = none →
      backupNameGo fs name t = bnStem name t ++ Nat.toDigits 10 1 ∧
      bnStem name t ++ Nat.toDigits 10 1 ≠ bnStem name t) ∧
    ((∀ j : Nat, 1 ≤ j → j ≤ 98 → fsGet fs (bnStem name t ++ Nat.toDigits 10 j) ≠ none) →
      fsGet fs (bnStem name t) ≠ none →
      backupNameGo fs name t = bnStem name t ++ Nat.toDigits 10 99) := by
  refine ⟨?_, ?_, ?_⟩
  · intro h
    rw [backupNameGo_eq_loop]
    rw [show (99 : Nat) = 98 + 1 from rfl, bnLoop_succ, h]
  · intro h1 h2
    rcases hc : fsGet fs (bnStem name t) with _ | g
    · exact absurd hc h1
    constructor
    · rw [backupNameGo_eq_loop]
      rw [show (99 : Nat) = 98 + 1 from rfl, bnLoop_succ, hc]
      rw [show (98 : Nat) = 97 + 1 from rfl, bnLoop_succ, h2]
    · exact append_ne_self _ _ (by decide)
  · intro hall h1
    rw [backupNameGo_eq_loop]
    rw [bnLoop_all_occupied fs (bnStem name t) 99 1 (bnStem name t) h1 ?_]
    · simp
    · intro j hj1 hj2
      exact hall j hj1 (by omega)

theorem C3_backupName_amended_witness :
    (fsGet ([] : Fs) (bnStem ("app.log").data 0) = none ∧
      backupNameGo [] ("app.log").data 0 = bnStem ("app.log").data 0) :=
  ⟨by decide, (C3_backupName_amended [] ("app.log").data 0).1 (by decide)⟩

lemma parseBackupTime_length {s : GoStr} {t : Int} (h : parseBackupTime s = some t) :
    s.length = 10 := by
  by_cases hc : s.length = 10 ∧ s.all Char.isDigit
  · exact hc.1
  · rw [parseBackupTime, if_neg hc] at h
    exact absurd h (by simp)

lemma isPfxOf_cons_self (c : Char) (rest : GoStr) : isPfxOf [c] (c :: rest) = true := by
  simp [isPfxOf]

lemma trimPfx_append (a b : GoStr) : trimPfx (a ++ b) a = b := by
  rw [trimPfx, if_pos (isPfxOf_append a b), List.drop_left]

lemma trimPfx_cons (c : Char) (rest : GoStr) : trimPfx (c :: rest) [c] = rest := by
  rw [trimPfx, if_pos (isPfxOf_cons_self c rest)]
  simp

/-- C10: `timeFromName` strips the `prefix ++ ext` head and an optional dot,
truncates the rest to the ten characters of the timestamp format, and
parses; so every filename `prefix ++ ext ++ "." ++ ts ++ trailing` with a
parseable ten-digit timestamp `ts` — whatever `trailing` is, including the
numeric disambiguation suffixes — is classified as a backup with timestamp
`ts` by `oldLogFiles`, and is hence subject to retention and compression. -/
theorem C10_timeFromName_lenient (l : RotateWriter) (pfx ext ts trailing nm : GoStr)
    (fi : File) (fs : Fs) (tval : Int)
    (hp : pfxOf l.Filename = pfx) (he : extOf l.Filename = ext)
    (hts : parseBackupTime ts = some tval)
    (hn : nm = pfx ++ ext ++ '.' :: (ts ++ trailing))
    (hmem : (nm, fi) ∈ fs) :
    timeFromName nm pfx ext false = some tval ∧
    (⟨tval, nm, fi.size, fi.mtime⟩ : logInfo) ∈ l.oldLogFiles fs := by
  have hlen : ts.length = 10 := parseBackupTime_length hts
  have hman : nm = (pfx ++ ext) ++ '.' :: (ts ++ trailing) := by
    rw [hn, List.append_assoc]
  have h1 : timeFromName nm pfx ext false = some tval := by
    rw [timeFromName, hman]
    rw [isPfxOf_append (pfx ++ ext) ('.' :: (ts ++ trailing))]
    simp only [Bool.not_true, Bool.false_eq_true, if_false, Bool.false_and]
    simp only [trimPfx_append, trimPfx_cons]
    by_cases htr : 10 < (ts ++ trailing).length
    · rw [if_pos htr]
      rw [show (10 : Nat) = ts.length from hlen.symm, List.take_left]
      exact hts
    · rw [if_neg htr]
      have : trailing.length = 0 := by
        have := List.length_append ts trailing
        omega
      have htrn : trailing = [] := List.length_eq_zero.mp this
      rw [htrn, List.append_nil]
      exact hts
  refine ⟨h1, ?_⟩
  rw [RotateWriter.oldLogFiles, mem_sortLogs]
  rw [List.mem_filterMap]
  refine ⟨(nm, fi), hmem, ?_⟩
  rw [hp, he, classifyBackup, h1]

theorem C10_timeFromName_lenient_witness :
    (pfxOf lwApp.Filename = ("app").data ∧ extOf lwApp.Filename = (".log").data ∧
      parseBackupTime ("2024010213").data = some t13 ∧
      nmSuffixed = ("app").data ++ (".log").data ++ '.' :: (("2024010213").data ++ ("1").data) ∧
      (nmSuffixed, fileB) ∈ [(nmSuffixed, fileB)]) ∧
    (timeFromName nmSuffixed ("app").data (".log").data false = some t13 ∧
      (⟨t13, nmSuffixed, fileB.size, fileB.mtime⟩ : logInfo) ∈
        lwApp.oldLogFiles [(nmSuffixed, fileB)]) :=
  ⟨⟨by decide, by decide, by decide, by decide, by decide⟩,
   C10_timeFromName_lenient lwApp ("app").data (".log").data ("2024010213").data ("1").data
     nmSuffixed fileB [(nmSuffixed, fileB)] t13 (by decide) (by decide) (by decide) (by decide)
     (by decide)⟩

lemma openNew_spec (l : RotateWriter) (fs : Fs) (now : Int) :
    (l.openNew fs now).1.cfg = l.cfg ∧
    (l.openNew fs now).1.Filename = l.Filename ∧
    (l.openNew fs now).1.size = 0 ∧
    (l.openNew fs now).1.fileOpen = true ∧
    ∃ m, fsGet (l.openNew fs now).2 l.Filename =
      some { data := .raw [], mode := m, mtime := now } := by
  rcases h : fsGet fs l.Filename with _ | info
  · simp only [RotateWriter.openNew, h]
    exact ⟨by trivial, by trivial, by trivial, by trivial, 0o644, fsGet_fsInsert_self ..⟩
  · simp only [RotateWriter.openNew, h]
    exact ⟨by trivial, by trivial, by trivial, by trivial, info.mode, fsGet_fsInsert_self ..⟩

lemma close_keeps (l : RotateWriter) :
    (l.close).2.cfg = l.cfg ∧ (l.close).2.Filename = l.Filename ∧ (l.close).2.size = l.size := by
  by_cases h : l.fileOpen <;> simp [RotateWriter.close, h]

lemma rotate_spec (l : RotateWriter) (fs : Fs) (now : Int) :
    (l.rotate fs now).1.cfg = l.cfg ∧
    (l.rotate fs now).1.Filename = l.Filename ∧
    (l.rotate fs now).1.size = 0 ∧
    (l.rotate fs now).1.fileOpen = true ∧
    ∃ m, fsGet (l.rotate fs now).2 l.Filename =
      some { data := .raw [], mode := m, mtime := now } := by
  rw [RotateWriter.rotate]
  obtain ⟨hc, hf, _⟩ := close_keeps l
  obtain ⟨h1, h2, h3, h4, m, h5⟩ := openNew_spec (l.close).2 fs now
  rw [hf] at h2 h5
  exact ⟨h1.trans hc, h2, h3, h4, m, h5⟩

lemma fsAppend_spec (fs : Fs) (name : GoStr) (f : File) (b p : Bytes) (now : Int)
    (hget : fsGet fs name = some f) (hdata : f.data = .raw b) :
    fsGet (fsAppend fs name p now) name =
      some { data := .raw (b ++ p), mode := f.mode, mtime := now } := by
  have ha : appendData f.data p = .raw (b ++ p) := by
    rw [hdata]
    rfl
  rw [fsAppend, hget]
  show fsGet (fsInsert fs name { data := appendData f.data p, mode := f.mode, mtime := now })
      name = some { data := .raw (b ++ p), mode := f.mode, mtime := now }
  rw [ha]
  exact fsGet_fsInsert_self ..

/-- C1: for a write that succeeds on an open handle with
`len(p) <= max`, the post-write size counter is the pre-write counter plus
`len(p)` when no rotation occurred, and exactly `len(p)` when the write
triggered a rotation; rotation is triggered exactly when pre-write size
plus `len(p)` exceeds the max; and the invariant that the counter equals
the bytes held by the currently open (truncated-at-open) handle is
preserved. -/
theorem C1_write_size_accounting (l : RotateWriter) (fs : Fs) (now : Int) (p : Bytes)
    (ho : l.fileOpen = true) (hlen : (p.length : Int) ≤ l.max) (hinv : activeInv l fs) :
    (l.write fs now p).1 = p.length ∧
    (l.write fs now p).2.1 = none ∧
    (l.write fs now p).2.2.1.size =
      (if l.max < l.size + (p.length : Int) then ((p.length : Int)) else l.size + p.length) ∧
    activeInv (l.write fs now p).2.2.1 (l.write fs now p).2.2.2 := by
  have hns : ¬ (l.max < ((p.length : Int))) := not_lt.mpr hlen
  by_cases hrot : l.max < l.size + (p.length : Int)
  · obtain ⟨h1, h2, h3, h4, m, h5⟩ := rotate_spec l fs now
    simp only [RotateWriter.write, hns, ho, hrot, if_true, if_false, ite_true, ite_false]
    refine ⟨by trivial, by trivial, ?_, ?_⟩
    · rw [h3]
      simp
    · intro _
      refine ⟨{ data := .raw ([] ++ p), mode := m, mtime := now }, [] ++ p, ?_, rfl, ?_⟩
      · exact fsAppend_spec ((l.rotate fs now).2) ((l.rotate fs now).1.Filename)
          { data := .raw [], mode := m, mtime := now } [] p now (by rw [h2]; exact h5) rfl
      · rw [h3]
        simp
  · obtain ⟨f, b, hget, hdata, hblen⟩ := hinv ho
    simp only [RotateWriter.write, hns, ho, hrot, if_true, if_false, ite_true, ite_false]
    refine ⟨by trivial, by trivial, by trivial, ?_⟩
    intro _
    refine ⟨{ data := .raw (b ++ p), mode := f.mode, mtime := now }, b ++ p, ?_, rfl, ?_⟩
    · exact fsAppend_spec fs l.Filename f b p now hget hdata
    · rw [← hblen]
      simp

theorem C1_write_size_accounting_witness :
    (lwOpen.fileOpen = true ∧ (([1, 2, 3] : Bytes).length : Int) ≤ lwOpen.max ∧
      activeInv lwOpen fsActive) ∧
    ((lwOpen.write fsActive 0 [1, 2, 3]).1 = ([1, 2, 3] : Bytes).length ∧
      (lwOpen.write fsActive 0 [1, 2, 3]).2.1 = none ∧
      (lwOpen.write fsActive 0 [1, 2, 3]).2.2.1.size =
        (if lwOpen.max < lwOpen.size + (([1, 2, 3] : Bytes).length : Int)
          then ((([1, 2, 3] : Bytes).length : Int))
          else lwOpen.size + ([1, 2, 3] : Bytes).length) ∧
      activeInv (lwOpen.write fsActive 0 [1, 2, 3]).2.2.1
        (lwOpen.write fsActive 0 [1, 2, 3]).2.2.2) :=
  ⟨⟨rfl, by decide, fun _ => ⟨{ data := .raw [], mode := 420, mtime := 0 }, [], rfl, rfl, rfl⟩⟩,
   C1_write_size_accounting lwOpen fsActive 0 [1, 2, 3] rfl (by decide)
     (fun _ => ⟨{ data := .raw [], mode := 420, mtime := 0 }, [], rfl, rfl, rfl⟩)⟩

lemma insertLog_perm (x : logInfo) (l : List logInfo) :
    List.Perm (insertLog x l) (x :: l) := by
  induction l with
  | nil => rfl
  | cons z zs ih =>
    rw [insertLog]
    by_cases h : lessByFormatTime x z
    · rw [if_pos h]
    · rw [if_neg h]
      exact (List.Perm.cons z ih).trans (List.Perm.swap x z zs)

lemma sortLogs_perm (l : List logInfo) : List.Perm (sortLogs l) l := by
  induction l with
  | nil => rfl
  | cons y ys ih => exact (insertLog_perm y (sortLogs ys)).trans (List.Perm.cons y ih)

lemma classifyBackup_name {pfx ext nm : GoStr} {fi : File} {li : logInfo}
    (h : classifyBackup pfx ext nm fi = some li) : li.name = nm := by
  rw [classifyBackup] at h
  rcases h1 : timeFromName nm pfx ext false with _ | t
  · rw [h1] at h
    rcases h2 : timeFromName nm pfx ext true with _ | t2
    · rw [h2] at h
      exact absurd h (by simp)
    · rw [h2] at h
      cases h
      rfl
  · rw [h1] at h
    cases h
    rfl

lemma filterMap_classify_names_sub (pfx ext : GoStr) (fs : Fs) :
    ∀ x ∈ (fs.filterMap (fun e => classifyBackup pfx ext e.1 e.2)).map (fun f => f.name),
      x ∈ fs.map Prod.fst := by
  induction fs with
  | nil => simp
  | cons e rest ih =>
    obtain ⟨k, g⟩ := e
    intro x hx
    rcases hc : classifyBackup pfx ext k g with _ | li
    · rw [List.filterMap_cons, hc] at hx
      exact List.mem_cons_of_mem _ (ih x hx)
    · rw [List.filterMap_cons, hc] at hx
      rcases List.mem_cons.mp hx with h1 | h1
      · rw [h1]
        show li.name ∈ List.map Prod.fst ((k, g) :: rest)
        rw [classifyBackup_name hc]
        exact List.mem_cons_self _ _
      · exact List.mem_cons_of_mem _ (ih x h1)

lemma oldLogFiles_names_nodup (l : RotateWriter) (fs : Fs)
    (hwf : (fs.map Prod.fst).Nodup) :
    ((l.oldLogFiles fs).map (fun f => f.name)).Nodup := by
  have hperm : List.Perm ((l.oldLogFiles fs).map (fun f => f.name))
      ((fs.filterMap
        (fun e => classifyBackup (pfxOf l.Filename) (extOf l.Filename) e.1 e.2)).map
          (fun f => f.name)) :=
    List.Perm.map _ (sortLogs_perm _)
  refine hperm.nodup_iff.mpr ?_
  clear hperm
  induction fs with
  | nil => simp
  | cons e rest ih =>
    obtain ⟨k, g⟩ := e
    rcases List.nodup_cons.mp hwf with ⟨hk, hrest⟩
    rcases hc : classifyBackup (pfxOf l.Filename) (extOf l.Filename) k g with _ | li
    · rw [List.filterMap_cons, hc]
      exact ih hrest
    · rw [List.filterMap_cons, hc, List.map_cons]
      refine List.nodup_cons.mpr ⟨?_, ih hrest⟩
      intro hmem
      rw [classifyBackup_name hc] at hmem
      exact hk (filterMap_classify_names_sub _ _ rest k hmem)

lemma execRemove_get (ok : GoStr → Bool) :
    ∀ (files : List logInfo) (fs : Fs) (err : Option GoError) (n : GoStr),
      fsGet (execRemove ok files fs err).1 n =
        if n ∈ (files.filter (fun f => ok f.name)).map (fun f => f.name) then none
        else fsGet fs n := by
  intro files
  induction files with
  | nil =>
    intro fs err n
    simp [execRemove]
  | cons f rest ih =>
    intro fs err n
    rw [execRemove]
    by_cases hok : ok f.name
    · have hfc : (f :: rest).filter (fun f => ok f.name) =
          f :: rest.filter (fun f => ok f.name) := by
        simp [List.filter_cons, hok]
      rw [if_pos hok, ih, fsGet_fsErase, hfc, List.map_cons]
      by_cases h1 : n ∈ (rest.filter (fun f => ok f.name)).map (fun f => f.name)
      · simp [List.mem_cons, h1]
      · by_cases h2 : n = f.name
        · simp [List.mem_cons, h1, h2]
        · simp [List.mem_cons, h1, h2]
    · have hfc : (f :: rest).filter (fun f => ok f.name) =
          rest.filter (fun f => ok f.name) := by
        simp [List.filter_cons, hok]
      rw [if_neg hok, ih, hfc]

lemma execRemove_keep_err (ok : GoStr → Bool) :
    ∀ (files : List logInfo) (fs : Fs) (e : GoError),
      (execRemove ok files fs (some e)).2 = some e := by
  intro files
  induction files with
  | nil => intro fs e; rfl
  | cons f rest ih =>
    intro fs e
    rw [execRemove]
    by_cases hok : ok f.name
    · rw [if_pos hok]
      exact ih _ e
    · rw [if_neg hok, if_neg (by simp : ¬ ((some e : Option GoError) = none))]
      exact ih _ e

lemma execRemove_err (ok : GoStr → Bool) :
    ∀ (files : List logInfo) (fs : Fs),
      (execRemove ok files fs none).2 =
        (files.find? (fun f => !(ok f.name))).map (fun f => GoError.removeError f.name) := by
  intro files
  induction files with
  | nil => intro fs; rfl
  | cons f rest ih =>
    intro fs
    rw [execRemove]
    by_cases hok : ok f.name
    · have hfind : (f :: rest).find? (fun f => !(ok f.name)) =
          rest.find? (fun f => !(ok f.name)) := by
        simp [List.find?, hok]
      rw [if_pos hok, ih, hfind]
    · have hfind : (f :: rest).find? (fun f => !(ok f.name)) = some f := by
        simp [List.find?, hok]
      rw [if_neg hok, if_pos rfl, execRemove_keep_err, hfind]
      rfl

/-- C7: removals are best-effort (every file is attempted even after a
failure; the first error is remembered and returned), and compression of a
backup writes `<name>.gz` holding the gzip of the source bytes under the
source's permission mode, then deletes the uncompressed source; the
compressed file decompresses back to the original contents; on a failure
during the copy phase the partial `.gz` output is deleted, the source kept,
and the error surfaced. -/
theorem C7_removal_compression (removeOk : GoStr → Bool) (files : List logInfo)
    (fs0 fs : Fs) (src dst : GoStr) (fi : File) (now : Int)
    (hget : fsGet fs src = some fi) (hne : dst ≠ src) :
    ((execRemove removeOk files fs0 none).2 =
      (files.find? (fun f => !(removeOk f.name))).map (fun f => GoError.removeError f.name)) ∧
    (∀ n : GoStr, fsGet (execRemove removeOk files fs0 none).1 n =
      if n ∈ (files.filter (fun f => removeOk f.name)).map (fun f => f.name) then none
      else fsGet fs0 n) ∧
    ((compressLogFile true src dst fs now).2 = none ∧
      fsGet (compressLogFile true src dst fs now).1 dst =
        some { data := .gzipped fi.data, mode := fi.mode, mtime := now } ∧
      gunzipData (.gzipped fi.data) = some fi.data ∧
      fsGet (compressLogFile true src dst fs now).1 src = none) ∧
    ((compressLogFile false src dst fs now).2 = some (.compressError src) ∧
      fsGet (compressLogFile false src dst fs now).1 dst = none ∧
      fsGet (compressLogFile false src dst fs now).1 src = some fi) := by
  refine ⟨execRemove_err removeOk files fs0, fun n => execRemove_get removeOk files fs0 none n,
    ⟨?_, ?_, rfl, ?_⟩, ⟨?_, ?_, ?_⟩⟩
  · rw [compressLogFile, hget]
    rfl
  · rw [compressLogFile, hget]
    show fsGet (fsErase (fsInsert (fsInsert fs dst { data := .raw [], mode := fi.mode, mtime := now })
      dst { data := .gzipped fi.data, mode := fi.mode, mtime := now }) src) dst = _
    rw [fsGet_fsErase, if_neg hne]
    exact fsGet_fsInsert_self ..
  · rw [compressLogFile, hget]
    show fsGet (fsErase (fsInsert (fsInsert fs dst { data := .raw [], mode := fi.mode, mtime := now })
      dst { data := .gzipped fi.data, mode := fi.mode, mtime := now }) src) src = none
    rw [fsGet_fsErase, if_pos rfl]
  · rw [compressLogFile, hget]
    rfl
  · rw [compressLogFile, hget]
    show fsGet (fsErase (fsInsert fs dst { data := .raw [], mode := fi.mode, mtime := now }) dst)
      dst = none
    rw [fsGet_fsErase, if_pos rfl]
  · rw [compressLogFile, hget]
    show fsGet (fsErase (fsInsert fs dst { data := .raw [], mode := fi.mode, mtime := now }) dst)
      src = some fi
    rw [fsGet_fsErase, if_neg (Ne.symm hne), fsGet_fsInsert_ne _ _ _ _ (Ne.symm hne)]
    exact hget

theorem C7_removal_compression_witness :
    (fsGet [(srcNm, fileB)] srcNm = some fileB ∧ ("app.log.2024010213.gz").data ≠ srcNm) ∧
    (((execRemove (fun _ => true) [] [] none).2 =
      (([] : List logInfo).find? (fun f => !(true : Bool))).map
        (fun f => GoError.removeError f.name)) ∧
    (∀ n : GoStr, fsGet (execRemove (fun _ => true) [] [] none).1 n =
      if n ∈ (([] : List logInfo).filter (fun _ => (true : Bool))).map (fun f => f.name) then none
      else fsGet [] n) ∧
    ((compressLogFile true srcNm ("app.log.2024010213.gz").data [(srcNm, fileB)] 0).2 = none ∧
      fsGet (compressLogFile true srcNm ("app.log.2024010213.gz").data [(srcNm, fileB)] 0).1
          ("app.log.2024010213.gz").data =
        some { data := .gzipped fileB.data, mode := fileB.mode, mtime := 0 } ∧
      gunzipData (.gzipped fileB.data) = some fileB.data ∧
      fsGet (compressLogFile true srcNm ("app.log.2024010213.gz").data [(srcNm, fileB)] 0).1
        srcNm = none) ∧
    ((compressLogFile false srcNm ("app.log.2024010213.gz").data [(srcNm, fileB)] 0).2 =
        some (.compressError srcNm) ∧
      fsGet (compressLogFile false srcNm ("app.log.2024010213.gz").data [(srcNm, fileB)] 0).1
        ("app.log.2024010213.gz").data = none ∧
      fsGet (compressLogFile false srcNm ("app.log.2024010213.gz").data [(srcNm, fileB)] 0).1
        srcNm = some fileB)) :=
  ⟨⟨by decide, by decide⟩,
   C7_removal_compression (fun _ => true) [] [] [(srcNm, fileB)] srcNm
     ("app.log.2024010213.gz").data fileB 0 (by decide) (by decide)⟩

lemma countStage_zero (files : List logInfo) : countStage 0 files = ([], files) := by
  rw [countStage, if_neg]
  rintro ⟨h, _⟩
  exact absurd h (by omega)

lemma sizeStage_zero (l : RotateWriter) (fs : Fs) (rem files : List logInfo)
    (h : l.cfg.MaxBackupSize = 0) : sizeStage l fs rem files = ([], files) := by
  rw [sizeStage, if_neg]
  rw [h]
  omega

lemma ageStage_pos (d now : Int) (files : List logInfo) (h : 0 < d) :
    ageStage d now files =
      (files.filter (fun f => f.timestamp < now - 1440 * d),
        files.filter (fun f => ¬ f.timestamp < now - 1440 * d)) := by
  rw [ageStage, if_pos h]

lemma find?_const_false (files : List logInfo) :
    files.find? (fun _ => false) = none := by
  induction files with
  | nil => rfl
  | cons f rest ih => simp [List.find?, ih]

/-- C5: with maxAge = d > 0 and every other policy disabled, a compaction
pass computes the cutoff as now − d·24h (no calendar adjustment), removes
exactly the backups whose parsed filename timestamp is strictly before the
cutoff, keeps every file whose timestamp is at or after the cutoff — in
particular one dated exactly at the cutoff — and returns no error. -/
theorem C5_age_retention (l : RotateWriter) (fs : Fs) (now d : Int) (li : logInfo)
    (hA : l.cfg.MaxAge = d) (hd : 0 < d)
    (hB : l.cfg.MaxBackups = 0) (hS : l.cfg.MaxBackupSize = 0) (hC : l.cfg.Compress = false)
    (hwf : (fs.map Prod.fst).Nodup)
    (hli : li ∈ l.oldLogFiles fs) :
    (li.timestamp < now - 1440 * d →
      fsGet (l.millRunOnce (fun _ => true) (fun _ => true) fs now).1 li.name = none) ∧
    (now - 1440 * d ≤ li.timestamp →
      fsGet (l.millRunOnce (fun _ => true) (fun _ => true) fs now).1 li.name =
        fsGet fs li.name) ∧
    (l.millRunOnce (fun _ => true) (fun _ => true) fs now).2 = none := by
  have hguard : ¬ (l.cfg.MaxBackups = 0 ∧ l.cfg.MaxAge = 0 ∧ ¬l.cfg.Compress ∧
      l.cfg.MaxBackupSize = 0) := by
    rintro ⟨_, h2, _, _⟩
    omega
  have hmill : l.millRunOnce (fun _ => true) (fun _ => true) fs now =
      execRemove (fun _ => true)
        ((l.oldLogFiles fs).filter (fun f => f.timestamp < now - 1440 * d)) fs none := by
    rw [RotateWriter.millRunOnce, if_neg hguard]
    simp only [hB, hA, hC, countStage_zero, ageStage_pos d now _ hd,
      sizeStage_zero l fs _ _ hS, Bool.false_eq_true, if_false, List.nil_append,
      List.append_nil]
    rfl
  have hnames := oldLogFiles_names_nodup l fs hwf
  refine ⟨?_, ?_, ?_⟩
  · intro hlt
    rw [hmill, execRemove_get, if_pos]
    rw [List.filter_filter]
    refine List.mem_map.mpr ⟨li, ?_, rfl⟩
    refine List.mem_filter.mpr ⟨hli, ?_⟩
    simp [hlt]
  · intro hge
    rw [hmill, execRemove_get, if_neg]
    intro hmem
    rw [List.filter_filter] at hmem
    rcases List.mem_map.mp hmem with ⟨lj, hjmem, hjname⟩
    rcases List.mem_filter.mp hjmem with ⟨hjfiles, hjpred⟩
    have : lj = li := List.inj_on_of_nodup_map hnames hjfiles hli hjname
    rw [this] at hjpred
    simp at hjpred
    omega
  · rw [hmill, execRemove_err]
    have : ((l.oldLogFiles fs).filter
        (fun f => f.timestamp < now - 1440 * d)).find? (fun f => !(true : Bool)) = none := by
      rw [show (fun (f : logInfo) => !(true : Bool)) = (fun _ => false) from rfl]
      exact find?_const_false _
    rw [this]
    rfl

theorem C5_age_retention_witness :
    (lwAge.cfg.MaxAge = 1 ∧ (0 : Int) < 1 ∧ lwAge.cfg.MaxBackups = 0 ∧
      lwAge.cfg.MaxBackupSize = 0 ∧ lwAge.cfg.Compress = false ∧
      (([(srcNm, fileB)] : Fs).map Prod.fst).Nodup ∧
      liAge ∈ lwAge.oldLogFiles [(srcNm, fileB)]) ∧
    ((liAge.timestamp < t13 - 1440 * 1 →
      fsGet (lwAge.millRunOnce (fun _ => true) (fun _ => true) [(srcNm, fileB)] t13).1
        liAge.name = none) ∧
    (t13 - 1440 * 1 ≤ liAge.timestamp →
      fsGet (lwAge.millRunOnce (fun _ => true) (fun _ => true) [(srcNm, fileB)] t13).1
        liAge.name = fsGet [(srcNm, fileB)] liAge.name) ∧
    (lwAge.millRunOnce (fun _ => true) (fun _ => true) [(srcNm, fileB)] t13).2 = none) :=
  ⟨⟨rfl, by decide, rfl, rfl, rfl, by decide, by decide⟩,
   C5_age_retention lwAge [(srcNm, fileB)] t13 1 liAge rfl (by decide) rfl rfl rfl
     (by decide) (by decide)⟩

lemma countWalk_nodup_keys (k : Int) :
    ∀ (files : List logInfo) (preserved : List GoStr),
      ((files.map (fun f => trimSfx f.name compressSuffix)).Nodup) →
      (∀ f ∈ files, trimSfx f.name compressSuffix ∉ preserved) →
      countWalk k preserved files =
        (files.drop (k - preserved.length).toNat, files.take (k - preserved.length).toNat) := by
  intro files
  induction files with
  | nil => intro preserved _ _; simp [countWalk]
  | cons f rest ih =>
    intro preserved hnd hout
    rcases List.nodup_cons.mp hnd with ⟨hfn, hrest⟩
    have hcont : preserved.contains (trimSfx f.name compressSuffix) = false := by
      simpa using hout f (List.mem_cons_self f rest)
    rw [countWalk]
    simp only [hcont, Bool.false_eq_true, if_false]
    have hih := ih (trimSfx f.name compressSuffix :: preserved) hrest ?_
    · rw [hih]
      simp only [List.length_cons]
      by_cases hk : k < (preserved.length : Int) + 1
      · have e1 : (k - ((preserved.length : Int) + 1)).toNat = 0 := by omega
        have e2 : (k - (preserved.length : Int)).toNat = 0 := by omega
        rw [if_pos (by push_cast; omega)]
        simp [e1, e2]
      · have e3 : (k - (preserved.length : Int)).toNat =
            (k - ((preserved.length : Int) + 1)).toNat + 1 := by omega
        rw [if_neg (by push_cast; omega)]
        rw [e3]
        simp
    · intro g hg
      intro hmem
      rcases List.mem_cons.mp hmem with h1 | h1
      · refine hfn ?_
        show trimSfx f.name compressSuffix ∈ List.map (fun f => trimSfx f.name compressSuffix) rest
        rw [← h1]
        exact List.mem_map_of_mem (fun f => trimSfx f.name compressSuffix) hg
      · exact hout g (List.mem_cons_of_mem f hg) h1

lemma ageStage_zero (now : Int) (files : List logInfo) : ageStage 0 now files = ([], files) := by
  rw [ageStage, if_neg (by omega)]

/-- C4: with maxBackups = k > 0 and more backups than the budget (count and
dedup done on names with the `.gz` suffix stripped), a compaction pass with
the other policies disabled keeps exactly the first k entries of the
newest-first sorted backup list — the k most recently rotated by parsed
timestamp (the list is sorted descending) — and removes every other
backup, returning no error. -/
theorem C4_count_retention (l : RotateWriter) (fs : Fs) (now k : Int) (li : logInfo)
    (hk : l.cfg.MaxBackups = k) (hkpos : 0 < k)
    (hA : l.cfg.MaxAge = 0) (hS : l.cfg.MaxBackupSize = 0) (hC : l.cfg.Compress = false)
    (hwf : (fs.map Prod.fst).Nodup)
    (hdedup : ((l.oldLogFiles fs).map (fun f => trimSfx f.name compressSuffix)).Nodup)
    (hmore : k < ((l.oldLogFiles fs).length : Int))
    (hli : li ∈ l.oldLogFiles fs) :
    (l.oldLogFiles fs).Pairwise (fun a b => b.timestamp ≤ a.timestamp) ∧
    (li ∈ (l.oldLogFiles fs).take k.toNat →
      fsGet (l.millRunOnce (fun _ => true) (fun _ => true) fs now).1 li.name =
        fsGet fs li.name) ∧
    (li ∈ (l.oldLogFiles fs).drop k.toNat →
      fsGet (l.millRunOnce (fun _ => true) (fun _ => true) fs now).1 li.name = none) ∧
    (l.millRunOnce (fun _ => true) (fun _ => true) fs now).2 = none := by
  have hnames := oldLogFiles_names_nodup l fs hwf
  have hfiles_nd : (l.oldLogFiles fs).Nodup := List.Nodup.of_map _ hnames
  have hguard : ¬ (l.cfg.MaxBackups = 0 ∧ l.cfg.MaxAge = 0 ∧ ¬l.cfg.Compress ∧
      l.cfg.MaxBackupSize = 0) := by
    rintro ⟨h1, _, _, _⟩
    omega
  have hcount : countStage k (l.oldLogFiles fs) =
      ((l.oldLogFiles fs).drop k.toNat, (l.oldLogFiles fs).take k.toNat) := by
    rw [countStage, if_pos ⟨hkpos, hmore⟩,
      countWalk_nodup_keys k (l.oldLogFiles fs) [] hdedup (by simp)]
    simp
  have hmill : l.millRunOnce (fun _ => true) (fun _ => true) fs now =
      execRemove (fun _ => true) ((l.oldLogFiles fs).drop k.toNat) fs none := by
    rw [RotateWriter.millRunOnce, if_neg hguard]
    simp only [hk, hA, hC, hS, hcount, ageStage_zero, sizeStage_zero l fs _ _ hS,
      Bool.false_eq_true, if_false, List.nil_append, List.append_nil]
    rfl
  have hdisj : List.Disjoint ((l.oldLogFiles fs).take k.toNat)
      ((l.oldLogFiles fs).drop k.toNat) :=
    (List.nodup_append.mp (by rw [List.take_append_drop]; exact hfiles_nd)).2.2
  refine ⟨?_, ?_, ?_, ?_⟩
  · rw [RotateWriter.oldLogFiles]
    exact pairwise_sortLogs _
  · intro htake
    rw [hmill, execRemove_get, if_neg]
    intro hmem
    rw [List.filter_true] at hmem
    rcases List.mem_map.mp hmem with ⟨lj, hjmem, hjname⟩
    have hjfiles : lj ∈ l.oldLogFiles fs := List.mem_of_mem_drop hjmem
    have : lj = li := List.inj_on_of_nodup_map hnames hjfiles hli hjname
    rw [this] at hjmem
    exact hdisj htake hjmem
  · intro hdrop
    rw [hmill, execRemove_get, if_pos]
    rw [List.filter_true]
    exact List.mem_map.mpr ⟨li, hdrop, rfl⟩
  · rw [hmill, execRemove_err]
    have : (((l.oldLogFiles fs).drop k.toNat).find? (fun f => !(true : Bool))) = none := by
      rw [show (fun (f : logInfo) => !(true : Bool)) = (fun _ => false) from rfl]
      exact find?_const_false _
    rw [this]
    rfl

theorem C4_count_retention_witness :
    (lwCount.cfg.MaxBackups = 1 ∧ (0 : Int) < 1 ∧ lwCount.cfg.MaxAge = 0 ∧
      lwCount.cfg.MaxBackupSize = 0 ∧ lwCount.cfg.Compress = false ∧
      (fsCount.map Prod.fst).Nodup ∧
      ((lwCount.oldLogFiles fsCount).map (fun f => trimSfx f.name compressSuffix)).Nodup ∧
      (1 : Int) < ((lwCount.oldLogFiles fsCount).length : Int) ∧
      liAge ∈ lwCount.oldLogFiles fsCount) ∧
    ((lwCount.oldLogFiles fsCount).Pairwise (fun a b => b.timestamp ≤ a.timestamp) ∧
      (liAge ∈ (lwCount.oldLogFiles fsCount).take (1 : Int).toNat →
        fsGet (lwCount.millRunOnce (fun _ => true) (fun _ => true) fsCount t13).1 liAge.name =
          fsGet fsCount liAge.name) ∧
      (liAge ∈ (lwCount.oldLogFiles fsCount).drop (1 : Int).toNat →
        fsGet (lwCount.millRunOnce (fun _ => true) (fun _ => true) fsCount t13).1 liAge.name =
          none) ∧
      (lwCount.millRunOnce (fun _ => true) (fun _ => true) fsCount t13).2 = none) :=
  ⟨⟨rfl, by decide, rfl, rfl, rfl, by decide, by decide, by decide, by decide⟩,
   C4_count_retention lwCount fsCount t13 1 liAge rfl (by decide) rfl rfl rfl (by decide)
     (by decide) (by decide) (by decide)⟩

lemma sizeCut_of_lt (budget tot : Int) (rl : List logInfo) (h : ¬ budget ≤ tot) :
    sizeCut budget tot rl = 0 := by
  cases rl <;> simp [sizeCut, h]

lemma sizeWalk_eq (budget : Int) : ∀ (rl : List logInfo) (tot : Int),
    sizeWalk budget tot rl =
      (tot - ((rl.take (sizeCut budget tot rl)).map (fun f => f.fsize)).sum,
        rl.take (sizeCut budget tot rl), rl.drop (sizeCut budget tot rl)) := by
  intro rl
  induction rl with
  | nil => intro tot; simp [sizeWalk, sizeCut]
  | cons f rest ih =>
    intro tot
    rw [sizeWalk, sizeCut]
    by_cases h : budget ≤ tot
    · rw [if_pos h, if_pos h, ih (tot - f.fsize)]
      simp only [List.take_succ_cons, List.drop_succ_cons, List.map_cons, List.sum_cons]
      rw [sub_sub]
    · rw [if_neg h, if_neg h, ih tot, sizeCut_of_lt budget tot rest h]
      simp

lemma sizeCut_min (budget : Int) : ∀ (rl : List logInfo) (tot : Int) (i : Nat),
    i < sizeCut budget tot rl →
    budget ≤ tot - ((rl.take i).map (fun f => f.fsize)).sum := by
  intro rl
  induction rl with
  | nil =>
    intro tot i h
    rw [sizeCut] at h
    omega
  | cons f rest ih =>
    intro tot i h
    rw [sizeCut] at h
    by_cases hb : budget ≤ tot
    · rw [if_pos hb] at h
      cases i with
      | zero => simpa using hb
      | succ j =>
        have hj := ih (tot - f.fsize) j (by omega)
        rw [sub_sub] at hj
        rw [List.take_succ_cons, List.map_cons, List.sum_cons]
        exact hj
    · rw [if_neg hb] at h
      omega

lemma sizeCut_end (budget : Int) : ∀ (rl : List logInfo) (tot : Int),
    sizeCut budget tot rl = rl.length ∨
      tot - ((rl.take (sizeCut budget tot rl)).map (fun f => f.fsize)).sum < budget := by
  intro rl
  induction rl with
  | nil => intro tot; left; rfl
  | cons f rest ih =>
    intro tot
    rw [sizeCut]
    by_cases hb : budget ≤ tot
    · rw [if_pos hb]
      rcases ih (tot - f.fsize) with h | h
      · left
        rw [h, List.length_cons]
      · right
        rw [sub_sub] at h
        rw [List.take_succ_cons, List.map_cons, List.sum_cons]
        exact h
    · rw [if_neg hb]
      right
      simpa using (by omega : tot < budget)

/-- C6: the total-size stage of the compaction pass first computes the
directory's recursive total size; when that total is below the byte budget
it marks nothing; when at or above, it subtracts the sizes already marked
by the count and age stages, and if the result is below budget it marks
nothing more; otherwise it walks the remaining backups in reverse of the
newest-first order (oldest first), marking a head-run of that walk: every
file marked was marked while the running total was still at or above the
budget, and the walk stops only once the total drops below the budget or
the list is exhausted. -/
theorem C6_size_retention (l : RotateWriter) (fs : Fs) (removedSoFar files : List logInfo)
    (tot2 : Int) (j : Nat)
    (hpos : 0 < l.cfg.MaxBackupSize)
    (htot : tot2 = dirsize fs - ((removedSoFar.map (fun f => f.fsize)).sum))
    (hj : j = sizeCut l.maxBackupSize tot2 files.reverse) :
    (dirsize fs < l.maxBackupSize → sizeStage l fs removedSoFar files = ([], files)) ∧
    (l.maxBackupSize ≤ dirsize fs → tot2 < l.maxBackupSize →
      sizeStage l fs removedSoFar files = ([], files)) ∧
    (l.maxBackupSize ≤ dirsize fs → l.maxBackupSize ≤ tot2 →
      sizeStage l fs removedSoFar files =
        (files.reverse.take j, files.reverse.drop j) ∧
      (∀ i : Nat, i < j →
        l.maxBackupSize ≤ tot2 - ((files.reverse.take i).map (fun f => f.fsize)).sum) ∧
      (j = files.reverse.length ∨
        tot2 - ((files.reverse.take j).map (fun f => f.fsize)).sum < l.maxBackupSize)) := by
  refine ⟨?_, ?_, ?_⟩
  · intro h
    rw [sizeStage, if_pos hpos, if_neg (not_le.mpr h)]
  · intro h1 h2
    rw [sizeStage, if_pos hpos, if_pos h1, if_neg (by rw [← htot]; exact not_le.mpr h2)]
  · intro h1 h2
    refine ⟨?_, fun i hi => sizeCut_min l.maxBackupSize files.reverse tot2 i (hj ▸ hi), ?_⟩
    · rw [sizeStage, if_pos hpos, if_pos h1, if_pos (by rw [← htot]; exact h2)]
      rw [← htot, sizeWalk_eq, ← hj]
    · rcases sizeCut_end l.maxBackupSize files.reverse tot2 with h | h
      · left
        rw [hj, h]
      · right
        rw [hj]
        exact h

lemma backupNameGo_free (fs : Fs) (name : GoStr) (t : Int)
    (h : fsGet fs (bnStem name t) = none) :
    backupNameGo fs name t = bnStem name t := by
  rw [backupNameGo_eq_loop, show (99 : Nat) = 98 + 1 from rfl, bnLoop_succ, h]

lemma rotate_fs (l : RotateWriter) (fs : Fs) (t : Int) (f0 : File)
    (hactive : fsGet fs l.Filename = some f0)
    (hfree : fsGet fs (bnStem l.Filename t) = none) :
    (l.rotate fs t).2 =
      fsInsert (fsInsert (fsErase fs l.Filename) (bnStem l.Filename t) f0) l.Filename
        { data := .raw [], mode := f0.mode, mtime := t } := by
  have hF : (l.close).2.Filename = l.Filename := (close_keeps l).2.1
  show (((l.close).2).openNew fs t).2 = _
  rw [RotateWriter.openNew, hF, hactive]
  show fsInsert (fsInsert (fsErase fs l.Filename) (backupNameGo fs l.Filename t) f0) l.Filename
      { data := .raw [], mode := f0.mode, mtime := t } = _
  rw [backupNameGo_free fs l.Filename t hfree]

lemma fsErase_names (fs : Fs) (n : GoStr) :
    (fsErase fs n).map Prod.fst = (fs.map Prod.fst).filter (fun m => decide (m ≠ n)) := by
  induction fs with
  | nil => simp [fsErase]
  | cons e rest ih =>
    obtain ⟨k, g⟩ := e
    by_cases hk : k = n <;> simp [fsErase, hk, ih, List.filter_cons]

lemma rotate_count (l : RotateWriter) (fs : Fs) (t : Int) (f0 : File)
    (hwf : (fs.map Prod.fst).Nodup)
    (hactive : fsGet fs l.Filename = some f0)
    (hfree : fsGet fs (bnStem l.Filename t) = none)
    (hne : bnStem l.Filename t ≠ l.Filename) :
    (((l.rotate fs t).2.map Prod.fst).Nodup) ∧
    fsGet (l.rotate fs t).2 l.Filename =
      some { data := .raw [], mode := f0.mode, mtime := t } ∧
    (∀ s : GoStr, s ≠ l.Filename → s ≠ bnStem l.Filename t →
      fsGet (l.rotate fs t).2 s = fsGet fs s) ∧
    ((l.rotate fs t).2.filter (fun e => decide (e.1 ≠ l.Filename))).length =
      (fs.filter (fun e => decide (e.1 ≠ l.Filename))).length + 1 := by
  rw [rotate_fs l fs t f0 hactive hfree]
  have hstemA : fsGet (fsErase fs l.Filename) (bnStem l.Filename t) = none := by
    rw [fsGet_fsErase, if_neg hne]
    exact hfree
  have hB : fsInsert (fsErase fs l.Filename) (bnStem l.Filename t) f0 =
      fsErase fs l.Filename ++ [(bnStem l.Filename t, f0)] :=
    fsInsert_of_absent _ _ _ hstemA
  have hnameB : fsGet (fsErase fs l.Filename ++ [(bnStem l.Filename t, f0)]) l.Filename =
      none := by
    rw [← hB, fsGet_fsInsert_ne _ _ _ _ (Ne.symm hne), fsGet_fsErase, if_pos rfl]
  have hC : fsInsert (fsInsert (fsErase fs l.Filename) (bnStem l.Filename t) f0) l.Filename
      { data := .raw [], mode := f0.mode, mtime := t } =
      (fsErase fs l.Filename ++ [(bnStem l.Filename t, f0)]) ++
        [(l.Filename, { data := .raw [], mode := f0.mode, mtime := t })] := by
    rw [hB]
    exact fsInsert_of_absent _ _ _ hnameB
  have hAnames : ((fsErase fs l.Filename).map Prod.fst).Nodup := by
    rw [fsErase_names]
    exact List.Nodup.filter _ hwf
  have hstem_not_A : bnStem l.Filename t ∉ (fsErase fs l.Filename).map Prod.fst :=
    (fsGet_eq_none_iff _ _).mp hstemA
  have hname_not_B : l.Filename ∉
      ((fsErase fs l.Filename ++ [(bnStem l.Filename t, f0)]).map Prod.fst) :=
    (fsGet_eq_none_iff _ _).mp hnameB
  refine ⟨?_, ?_, ?_, ?_⟩
  · rw [hC, List.map_append]
    refine List.Nodup.append ?_ (by simp) ?_
    · rw [List.map_append]
      refine List.Nodup.append hAnames (by simp) ?_
      intro a ha hb
      simp at hb
      rw [hb] at ha
      exact hstem_not_A ha
    · intro a ha hb
      simp at hb
      rw [hb] at ha
      exact hname_not_B ha
  · exact fsGet_fsInsert_self ..
  · intro s hs1 hs2
    rw [fsGet_fsInsert_ne _ _ _ _ hs1, fsGet_fsInsert_ne _ _ _ _ hs2, fsGet_fsErase,
      if_neg hs1]
  · rw [hC, List.filter_append, List.filter_append]
    have h1 : List.filter (fun e => decide (e.1 ≠ l.Filename))
        ([(bnStem l.Filename t, f0)] : Fs) = [(bnStem l.Filename t, f0)] := by
      simp [List.filter_cons, hne]
    have h2 : List.filter (fun e => decide (e.1 ≠ l.Filename))
        ([(l.Filename, { data := FileData.raw [], mode := f0.mode, mtime := t })] : Fs) =
        [] := by
      simp [List.filter_cons]
    have h3 : List.filter (fun e => decide (e.1 ≠ l.Filename)) (fsErase fs l.Filename) =
        fsErase fs l.Filename := by
      rw [fsErase_eq_filter, List.filter_filter]
      simp
    rw [h1, h2, h3, fsErase_eq_filter]
    simp

lemma rotateSeq_spec : ∀ (times : List Int) (l : RotateWriter) (fs : Fs) (f0 : File),
    (fs.map Prod.fst).Nodup →
    fsGet fs l.Filename = some f0 →
    (∀ t ∈ times, fsGet fs (bnStem l.Filename t) = none) →
    (∀ t ∈ times, bnStem l.Filename t ≠ l.Filename) →
    ((times.map (fun t => bnStem l.Filename t)).Nodup) →
    (rotateSeq l fs times).1.Filename = l.Filename ∧
    (((rotateSeq l fs times).2.map Prod.fst).Nodup) ∧
    (∃ fe, fsGet (rotateSeq l fs times).2 l.Filename = some fe ∧
      (times ≠ [] → fe.data = .raw [] ∧ (rotateSeq l fs times).1.size = 0 ∧
        (rotateSeq l fs times).1.fileOpen = true)) ∧
    ((rotateSeq l fs times).2.filter (fun e => decide (e.1 ≠ l.Filename))).length =
      (fs.filter (fun e => decide (e.1 ≠ l.Filename))).length + times.length := by
  intro times
  induction times with
  | nil =>
    intro l fs f0 hwf hactive _ _ _
    exact ⟨rfl, hwf, ⟨f0, hactive, by simp⟩, by simp [rotateSeq]⟩
  | cons t ts ih =>
    intro l fs f0 hwf hactive hfree hne hnod
    have hstep := rotate_count l fs t f0 hwf hactive (hfree t (List.mem_cons_self t ts))
      (hne t (List.mem_cons_self t ts))
    have hF : (l.rotate fs t).1.Filename = l.Filename := (rotate_spec l fs t).2.1
    have hsz : (l.rotate fs t).1.size = 0 := (rotate_spec l fs t).2.2.1
    have hop : (l.rotate fs t).1.fileOpen = true := (rotate_spec l fs t).2.2.2.1
    have hstem_head : ∀ s ∈ ts, bnStem l.Filename s ≠ bnStem l.Filename t := by
      intro s hs heq
      have h0 := (List.nodup_cons.mp hnod).1
      refine h0 ?_
      show bnStem l.Filename t ∈ List.map (fun t => bnStem l.Filename t) ts
      rw [← heq]
      exact List.mem_map_of_mem _ hs
    have hactive2 : fsGet (l.rotate fs t).2 (l.rotate fs t).1.Filename =
        some { data := .raw [], mode := f0.mode, mtime := t } := by
      rw [hF]
      exact hstep.2.1
    have hfree2 : ∀ s ∈ ts, fsGet (l.rotate fs t).2 (bnStem (l.rotate fs t).1.Filename s) =
        none := by
      intro s hs
      rw [hF, hstep.2.2.1 (bnStem l.Filename s) (hne s (List.mem_cons_of_mem t hs))
        (hstem_head s hs)]
      exact hfree s (List.mem_cons_of_mem t hs)
    have hne2 : ∀ s ∈ ts, bnStem (l.rotate fs t).1.Filename s ≠ (l.rotate fs t).1.Filename := by
      intro s hs
      rw [hF]
      exact hne s (List.mem_cons_of_mem t hs)
    have hnod2 : ((ts.map (fun s => bnStem (l.rotate fs t).1.Filename s)).Nodup) := by
      simp only [hF]
      exact (List.nodup_cons.mp hnod).2
    obtain ⟨ih1, ih2, ⟨fe, ihfe, ihemp⟩, ih4⟩ :=
      ih (l.rotate fs t).1 (l.rotate fs t).2 { data := .raw [], mode := f0.mode, mtime := t }
        hstep.1 hactive2 hfree2 hne2 hnod2
    have hseq : rotateSeq l fs (t :: ts) =
        rotateSeq (l.rotate fs t).1 (l.rotate fs t).2 ts := rfl
    rw [hseq]
    refine ⟨ih1.trans hF, ih2, ?_, ?_⟩
    · refine ⟨fe, ?_, ?_⟩
      · rw [← hF]
        exact ihfe
      · intro _
        by_cases hts : ts = []
        · subst hts
          have heq2 : some { data := FileData.raw [], mode := f0.mode, mtime := t } = some fe :=
            hactive2.symm.trans ihfe
          have hfe_eq : fe = { data := FileData.raw [], mode := f0.mode, mtime := t } :=
            ((Option.some.injEq _ _).mp heq2).symm
          exact ⟨by rw [hfe_eq], hsz, hop⟩
        · exact ihemp hts
    · have ih4b := ih4
      simp only [hF] at ih4b
      rw [ih4b, hstep.2.2.2]
      simp [List.length_cons]
      omega

/-- C8: with maxBackups, maxAge and maxBackupSize all zero and compression
disabled, a compaction pass is a no-op — it removes nothing, compresses
nothing and returns no error — and consequently N consecutive rotations
(at instants whose adjusted backup names are fresh and pairwise distinct,
which holds whenever fewer than 100 rotations share a clock hour) leave
exactly N more backup files than before, with the active file recreated
empty. -/
theorem C8_noop_and_rotation_count (l : RotateWriter) (ro co : GoStr → Bool) (fs : Fs)
    (now : Int) (times : List Int) (f0 : File)
    (hB : l.cfg.MaxBackups = 0) (hA : l.cfg.MaxAge = 0) (hS : l.cfg.MaxBackupSize = 0)
    (hC : l.cfg.Compress = false)
    (hwf : (fs.map Prod.fst).Nodup)
    (hactive : fsGet fs l.Filename = some f0)
    (hfree : ∀ t ∈ times, fsGet fs (bnStem l.Filename t) = none)
    (hne : ∀ t ∈ times, bnStem l.Filename t ≠ l.Filename)
    (hnod : ((times.map (fun t => bnStem l.Filename t)).Nodup)) :
    l.millRunOnce ro co fs now = (fs, none) ∧
    ((rotateSeq l fs times).2.filter (fun e => decide (e.1 ≠ l.Filename))).length =
      (fs.filter (fun e => decide (e.1 ≠ l.Filename))).length + times.length ∧
    (∃ fe, fsGet (rotateSeq l fs times).2 l.Filename = some fe ∧
      (times ≠ [] → fe.data = .raw [])) := by
  obtain ⟨_, _, ⟨fe, hfe, hemp⟩, hcount⟩ := rotateSeq_spec times l fs f0 hwf hactive hfree hne hnod
  refine ⟨?_, hcount, fe, hfe, fun h => (hemp h).1⟩
  rw [RotateWriter.millRunOnce, if_pos ⟨hB, hA, by rw [hC]; exact Bool.false_ne_true, hS⟩]

theorem C6_size_retention_witness :
    ((0 : Int) < lwSize.cfg.MaxBackupSize ∧
      (dirsize [] - ((([] : List logInfo).map (fun f => f.fsize)).sum) : Int) =
        dirsize [] - (([] : List logInfo).map (fun f => f.fsize)).sum ∧
      sizeCut lwSize.maxBackupSize
          (dirsize [] - (([] : List logInfo).map (fun f => f.fsize)).sum)
          ([] : List logInfo).reverse =
        sizeCut lwSize.maxBackupSize
          (dirsize [] - (([] : List logInfo).map (fun f => f.fsize)).sum)
          ([] : List logInfo).reverse) ∧
    ((dirsize [] < lwSize.maxBackupSize → sizeStage lwSize [] [] [] = ([], [])) ∧
      (lwSize.maxBackupSize ≤ dirsize [] →
        (dirsize [] - (([] : List logInfo).map (fun f => f.fsize)).sum) < lwSize.maxBackupSize →
        sizeStage lwSize [] [] [] = ([], [])) ∧
      (lwSize.maxBackupSize ≤ dirsize [] →
        lwSize.maxBackupSize ≤ dirsize [] - (([] : List logInfo).map (fun f => f.fsize)).sum →
        sizeStage lwSize [] [] [] =
          (([] : List logInfo).reverse.take
            (sizeCut lwSize.maxBackupSize
              (dirsize [] - (([] : List logInfo).map (fun f => f.fsize)).sum)
              ([] : List logInfo).reverse),
           ([] : List logInfo).reverse.drop
            (sizeCut lwSize.maxBackupSize
              (dirsize [] - (([] : List logInfo).map (fun f => f.fsize)).sum)
              ([] : List logInfo).reverse)) ∧
        (∀ i : Nat, i < sizeCut lwSize.maxBackupSize
            (dirsize [] - (([] : List logInfo).map (fun f => f.fsize)).sum)
            ([] : List logInfo).reverse →
          lwSize.maxBackupSize ≤
            (dirsize [] - (([] : List logInfo).map (fun f => f.fsize)).sum) -
              ((([] : List logInfo).reverse.take i).map (fun f => f.fsize)).sum) ∧
        (sizeCut lwSize.maxBackupSize
            (dirsize [] - (([] : List logInfo).map (fun f => f.fsize)).sum)
            ([] : List logInfo).reverse = ([] : List logInfo).reverse.length ∨
          (dirsize [] - (([] : List logInfo).map (fun f => f.fsize)).sum) -
            ((([] : List logInfo).reverse.take
              (sizeCut lwSize.maxBackupSize
                (dirsize [] - (([] : List logInfo).map (fun f => f.fsize)).sum)
                ([] : List logInfo).reverse)).map (fun f => f.fsize)).sum <
            lwSize.maxBackupSize))) :=
  ⟨⟨by decide, rfl, rfl⟩,
   C6_size_retention lwSize [] [] []
     (dirsize [] - (([] : List logInfo).map (fun f => f.fsize)).sum)
     (sizeCut lwSize.maxBackupSize
       (dirsize [] - (([] : List logInfo).map (fun f => f.fsize)).sum)
       ([] : List logInfo).reverse)
     (by decide) rfl rfl⟩

theorem C8_noop_and_rotation_count_witness :
    (lwApp.cfg.MaxBackups = 0 ∧ lwApp.cfg.MaxAge = 0 ∧ lwApp.cfg.MaxBackupSize = 0 ∧
      lwApp.cfg.Compress = false ∧ (fsActive.map Prod.fst).Nodup ∧
      fsGet fsActive lwApp.Filename = some { data := .raw [], mode := 420, mtime := 0 } ∧
      (∀ t ∈ [t13, t13 + 60], fsGet fsActive (bnStem lwApp.Filename t) = none) ∧
      (∀ t ∈ [t13, t13 + 60], bnStem lwApp.Filename t ≠ lwApp.Filename) ∧
      (([t13, t13 + 60].map (fun t => bnStem lwApp.Filename t)).Nodup)) ∧
    (lwApp.millRunOnce (fun _ => true) (fun _ => true) fsActive t13 = (fsActive, none) ∧
      ((rotateSeq lwApp fsActive [t13, t13 + 60]).2.filter
        (fun e => decide (e.1 ≠ lwApp.Filename))).length =
        (fsActive.filter (fun e => decide (e.1 ≠ lwApp.Filename))).length +
          ([t13, t13 + 60] : List Int).length ∧
      (∃ fe, fsGet (rotateSeq lwApp fsActive [t13, t13 + 60]).2 lwApp.Filename = some fe ∧
        (([t13, t13 + 60] : List Int) ≠ [] → fe.data = .raw []))) :=
  ⟨⟨rfl, rfl, rfl, rfl, by decide, by decide, by decide, by decide, by decide⟩,
   C8_noop_and_rotation_count lwApp (fun _ => true) (fun _ => true) fsActive t13
     [t13, t13 + 60] { data := .raw [], mode := 420, mtime := 0 } rfl rfl rfl rfl
     (by decide) (by decide) (by decide) (by decide) (by decide)⟩
